import Mathlib

/-!
Verification of the Angular DevTools injector-tree subsystem.

Shallow embedding of the injector resolution-path merger
(`injectorTreeReloaded`, `equalNode`, `pathExists` in
`devtools-tabs.component.ts`), of the resolution-path serializer
(`prepareForestForSerialization`, the `injectorMap` /
`containerInjectorIdToInstance` tables in the backend), and of the
component-forest lookup (`queryDirectiveForest` in `component-tree.ts`),
together with proofs about them.
-/

namespace AngularDevTools

/-! ## Part 1: the path-tree merger (frontend `DevToolsTabsComponent`)

The merger consumes serialized resolution paths: each entry of a
`DevToolsNode.resolutionPath` is a record with string fields `type`,
`owner` and `id` (owner and id are strings after serialization, so the
JS `===` comparisons in `equalNode` are value comparisons). -/

/-- One serialized injector record as it appears on a
`DevToolsNode.resolutionPath` received by the frontend. -/
structure SRecord where
  type : String
  owner : String
  id : String
deriving DecidableEq, Repr

/-- The view of a record used by `equalNode`.  During insertion the merger
mutates each `Element`-kind record with `injector.node = node`, where `node`
is the `DevToolsNode` whose path is being inserted; `equalNode` then reads
`a.node.resolutionPath`, of which only the length and the ids of the entries
matter.  `nodePathIds` holds those ids (in the serialized, element-first
order of `node.resolutionPath`). -/
structure InjectorNode where
  type : String
  owner : String
  id : String
  nodePathIds : List String
deriving DecidableEq, Repr

/-- Function `equalNode` from `injectorTreeReloaded`:

```js
const equalNode = (a, b) => {
  if (this.collapseSiblingElementInjector && a.type === 'Element' &&
      b.type === 'Element' && a.owner === b.owner &&
      a.node.resolutionPath.length === b.node.resolutionPath.length &&
      a.id !== b.id) {
    const [_aElementInjector, ...aInjectors] = a.node.resolutionPath;
    const [_bElementInjector, ...bInjectors] = b.node.resolutionPath;
    return aInjectors.every(({id}, idx) => bInjectors[idx].id === id);
  }
  return a.id === b.id;
};
```

The `every` loop runs over `aInjectors` and reads `bInjectors[idx].id`;
under the guard the two tails have equal length, so the `zip` below pairs
exactly the positions the loop inspects. -/
def equalNode (collapseSiblingElementInjector : Bool) (a b : InjectorNode) : Bool :=
  if collapseSiblingElementInjector && a.type == "Element" && b.type == "Element"
      && a.owner == b.owner
      && a.nodePathIds.length == b.nodePathIds.length
      && a.id != b.id then
    ((a.nodePathIds.tail).zip (b.nodePathIds.tail)).all fun p => p.2 == p.1
  else
    a.id == b.id

/-- A node of the merged injector tree:
`{injector, children}` as pushed by `injectorTreeReloaded`. -/
inductive MTree where
  | mk (injector : InjectorNode) (children : List MTree)

def MTree.injector : MTree → InjectorNode
  | .mk i _ => i

def MTree.children : MTree → List MTree
  | .mk _ cs => cs

@[simp] lemma MTree.injector_mk (i : InjectorNode) (cs : List MTree) :
    (MTree.mk i cs).injector = i := rfl

@[simp] lemma MTree.children_mk (i : InjectorNode) (cs : List MTree) :
    (MTree.mk i cs).children = cs := rfl

/-- The record actually stored/compared for one path entry `r` of a path
whose owning `DevToolsNode.resolutionPath` has ids `nodeIds`: the source
sets `injector.node = node` for `Element`-kind records only (line
`if (injector['type'] === 'Element') injector.node = node;`).  For
non-`Element` records the `node` field is never read by `equalNode`
(the collapse branch requires both types to be `"Element"`), so `[]` below
is never consulted. -/
def mkInjectorNode (nodeIds : List String) (r : SRecord) : InjectorNode :=
  { type := r.type
    owner := r.owner
    id := r.id
    nodePathIds := if r.type == "Element" then nodeIds else [] }

/-- One step of the insertion loop of `injectorTreeReloaded` at a fixed
level: scan the level (exactly like `pathExists`, which returns the first
node whose `injector` is `equalNode`-equal to the inserted value); on a hit
descend into the existing node's children with the continuation `ins`
(the insertion of the rest of the path); when the scan is exhausted, push
`{injector: v, children: []}` and descend into the fresh empty children. -/
def insertLevel (c : Bool) (v : InjectorNode) (ins : List MTree → List MTree) :
    List MTree → List MTree
  | [] => [MTree.mk v (ins [])]
  | t :: ts =>
    if equalNode c t.injector v then
      MTree.mk t.injector (ins t.children) :: ts
    else
      t :: insertLevel c v ins ts

/-- Insertion of one path (already reversed to root-first order, as the
loop `for (const injector of path)` receives it) into a forest level. -/
def insertPath (c : Bool) (nodeIds : List String) :
    List SRecord → List MTree → List MTree
  | [], level => level
  | r :: rest, level =>
    insertLevel c (mkInjectorNode nodeIds r) (insertPath c nodeIds rest) level

/-- The merge loop of `injectorTreeReloaded`: every collected
`{node, path: node.resolutionPath.slice().reverse()}` entry is inserted in
order into the accumulating tree.  The input here is the list of raw
serialized resolution paths (element-first, as they sit on the nodes);
the reversal and the `injector.node = node` mutation are performed per
path exactly as in the source. -/
def injectorTreeReloaded (c : Bool) (paths : List (List SRecord)) : List MTree :=
  paths.foldl
    (fun acc rp => insertPath c (rp.map SRecord.id) rp.reverse acc) []

/-- The linear chain a path produces when inserted into empty levels:
one node per record, each the sole child of the previous one. -/
def chainOf (nodeIds : List String) : List SRecord → List MTree
  | [] => []
  | r :: rest => [MTree.mk (mkInjectorNode nodeIds r) (chainOf nodeIds rest)]

/-- Predicate `hasIdPath q forest` holds when walking the ids of `q` from the top
level of `forest` reaches a node: the shape of the merged tree described
by the set of id-paths of its nodes. -/
def hasIdPath : List String → List MTree → Bool
  | [], _ => false
  | i :: q, level =>
    level.any fun t => t.injector.id == i && (q.isEmpty || hasIdPath q t.children)

/-- Predicate `headSeg q l`: `q` is an initial segment of `l`. -/
def headSeg : List String → List String → Bool
  | [], _ => true
  | _ :: _, [] => false
  | x :: q, y :: l => x == y && headSeg q l

/-- The no-duplicate-siblings invariant: at every level of the forest
(including the top level), no two sibling nodes are `equalNode`-equal,
in either orientation. -/
inductive GoodForest (c : Bool) : List MTree → Prop where
  | mk : ∀ level,
      level.Pairwise (fun s t =>
        equalNode c s.injector t.injector = false ∧
        equalNode c t.injector s.injector = false) →
      (∀ t ∈ level, GoodForest c t.children) →
      GoodForest c level

/-! ## Lemmas about `equalNode` -/

/-- The positional `every` test of `equalNode` is list equality once the
two lists have equal length. -/
lemma zip_all_beq_iff (xs ys : List String) (h : xs.length = ys.length) :
    (((xs.zip ys).all fun p => p.2 == p.1) = true) ↔ xs = ys := by
  induction xs generalizing ys with
  | nil =>
    cases ys with
    | nil => simp
    | cons y ys => simp at h
  | cons x xs ih =>
    cases ys with
    | nil => simp at h
    | cons y ys =>
      simp only [List.length_cons, Nat.succ.injEq] at h
      simp only [List.zip_cons_cons, List.all_cons, Bool.and_eq_true,
        beq_iff_eq, List.cons.injEq, ih ys h]
      constructor
      · rintro ⟨h1, h2⟩
        exact ⟨h1.symm, h2⟩
      · rintro ⟨h1, h2⟩
        exact ⟨h1.symm, h2⟩

/-- Characterization of `equalNode`: true exactly when the stable ids
match, or collapse mode is on, both records are `Element`-kind with equal
owner, equal resolution-path length, and positionally equal path ids
beyond the element itself. -/
lemma equalNode_eq_true_iff (c : Bool) (a b : InjectorNode) :
    equalNode c a b = true ↔
      (a.id = b.id ∨
        (c = true ∧ a.type = "Element" ∧ b.type = "Element" ∧ a.owner = b.owner ∧
          a.nodePathIds.length = b.nodePathIds.length ∧
          a.nodePathIds.tail = b.nodePathIds.tail)) := by
  unfold equalNode
  split
  · rename_i h
    simp only [Bool.and_eq_true, beq_iff_eq, bne_iff_ne, ne_eq] at h
    obtain ⟨⟨⟨⟨⟨hc, ha⟩, hb⟩, ho⟩, hl⟩, hid⟩ := h
    have htl : a.nodePathIds.tail.length = b.nodePathIds.tail.length := by
      simp [List.length_tail, hl]
    rw [zip_all_beq_iff _ _ htl]
    constructor
    · intro ht
      exact Or.inr ⟨hc, ha, hb, ho, hl, ht⟩
    · rintro (h | ⟨-, -, -, -, -, ht⟩)
      · exact absurd h hid
      · exact ht
  · rename_i h
    simp only [beq_iff_eq]
    constructor
    · exact Or.inl
    · rintro (hid | ⟨hc, ha, hb, ho, hl, -⟩)
      · exact hid
      · by_contra hne
        exact h (by simp [hc, ha, hb, ho, hl, bne_iff_ne, hne])

/-- The test `equalNode` is symmetric. -/
lemma equalNode_symm (c : Bool) (a b : InjectorNode) :
    equalNode c a b = equalNode c b a := by
  have h := equalNode_eq_true_iff c a b
  have h' := equalNode_eq_true_iff c b a
  have : equalNode c a b = true ↔ equalNode c b a = true := by
    rw [h, h']
    constructor
    · rintro (hid | ⟨hc, ha, hb, ho, hl, ht⟩)
      · exact Or.inl hid.symm
      · exact Or.inr ⟨hc, hb, ha, ho.symm, hl.symm, ht.symm⟩
    · rintro (hid | ⟨hc, hb, ha, ho, hl, ht⟩)
      · exact Or.inl hid.symm
      · exact Or.inr ⟨hc, ha, hb, ho.symm, hl.symm, ht.symm⟩
  cases hab : equalNode c a b <;> cases hba : equalNode c b a <;>
    simp_all

/-- The test `equalNode` is reflexive. -/
lemma equalNode_refl (c : Bool) (a : InjectorNode) :
    equalNode c a a = true :=
  (equalNode_eq_true_iff c a a).2 (Or.inl rfl)

/-- With collapse mode off, `equalNode` is exactly the stable-id test. -/
lemma equalNode_false_eq (a b : InjectorNode) :
    equalNode false a b = (a.id == b.id) := by
  simp [equalNode]

/-! ## Claim C1 -/

/-- C1: the merger's node-equivalence test `equalNode` returns true for two
injector records exactly when their stable ids match, or the
collapse-siblings mode is enabled, both records are `Element`-kind, their
owner labels are equal, their resolution paths have equal length, and every
injector id in the path beyond the element itself matches positionally;
moreover, for every pair of records of which at least one is not
`Element`-kind, they are equal iff their stable ids match. -/
theorem equalNode_spec (c : Bool) (a b : InjectorNode) :
    (equalNode c a b = true ↔
      (a.id = b.id ∨
        (c = true ∧ a.type = "Element" ∧ b.type = "Element" ∧ a.owner = b.owner ∧
          a.nodePathIds.length = b.nodePathIds.length ∧
          a.nodePathIds.tail = b.nodePathIds.tail))) ∧
    (a.type ≠ "Element" ∨ b.type ≠ "Element" →
      (equalNode c a b = true ↔ a.id = b.id)) := by
  refine ⟨equalNode_eq_true_iff c a b, fun hne => ?_⟩
  rw [equalNode_eq_true_iff]
  constructor
  · rintro (hid | ⟨-, ha, hb, -⟩)
    · exact hid
    · rcases hne with h | h
      · exact absurd ha h
      · exact absurd hb h
  · exact Or.inl

/-- Witness for C1 at concrete records: two non-Element records with equal
ids are `equalNode`-equal. -/
theorem equalNode_spec_witness :
    equalNode true ⟨"Module", "M", "7", []⟩ ⟨"Module", "N", "7", []⟩ = true :=
  ((equalNode_spec true ⟨"Module", "M", "7", []⟩ ⟨"Module", "N", "7", []⟩).2
    (Or.inl (by decide))).2 rfl

/-! ## Claim C10 -/

/-- C10: `equalNode` is reflexive and symmetric in both collapse modes. -/
theorem equalNode_refl_symm :
    (∀ (c : Bool) (a : InjectorNode), equalNode c a a = true) ∧
    (∀ (c : Bool) (a b : InjectorNode), equalNode c a b = equalNode c b a) :=
  ⟨equalNode_refl, equalNode_symm⟩

/-! ## Claim C4: merging a single path gives a linear chain -/

/-- Inserting a path into an empty level builds the linear chain of its
records: every record is appended and the insertion descends into the
fresh empty children. -/
lemma insertPath_nil (c : Bool) (ids : List String) :
    ∀ q : List SRecord, insertPath c ids q [] = chainOf ids q := by
  intro q
  induction q with
  | nil => rfl
  | cons r rest ih => simp [insertPath, insertLevel, chainOf, ih]

/-- C4: merging the one-element list `[p]` yields a tree whose shape is
identical to `p`: the linear chain of `p`'s records read root-to-leaf
(i.e. the reverse of the element-first serialized path, which is exactly
the order in which `injectorTreeReloaded` inserts them), with exactly one
child per level, as `chainOf` builds. -/
theorem merge_single_path (c : Bool) (rp : List SRecord) :
    injectorTreeReloaded c [rp] = chainOf (rp.map SRecord.id) rp.reverse := by
  simp [injectorTreeReloaded, insertPath_nil]

/-! ## Claim C3: no two siblings are `equalNode`-equal -/

lemma goodForest_nil (c : Bool) : GoodForest c [] :=
  GoodForest.mk [] List.Pairwise.nil (by intro t ht; cases ht)

/-- Every node of `insertLevel c v ins level` carries either the inserted
record `v` or the record of one of the original level's nodes. -/
lemma insertLevel_injector_mem (c : Bool) (v : InjectorNode)
    (ins : List MTree → List MTree) :
    ∀ (level : List MTree), ∀ u ∈ insertLevel c v ins level,
      u.injector = v ∨ u.injector ∈ level.map MTree.injector := by
  intro level
  induction level with
  | nil =>
    intro u hu
    simp only [insertLevel, List.mem_singleton] at hu
    subst hu
    exact Or.inl rfl
  | cons t ts ih =>
    intro u hu
    simp only [insertLevel] at hu
    split at hu
    · rcases List.mem_cons.mp hu with h | h
      · subst h
        refine Or.inr ?_
        simp
      · refine Or.inr ?_
        simp only [List.map_cons, List.mem_cons]
        exact Or.inr (List.mem_map_of_mem MTree.injector h)
    · rcases List.mem_cons.mp hu with h | h
      · subst h
        refine Or.inr ?_
        simp
      · rcases ih u h with h' | h'
        · exact Or.inl h'
        · refine Or.inr ?_
          simp only [List.map_cons, List.mem_cons]
          exact Or.inr h'

/-- One level step preserves the invariant: scanning compares the inserted
record against every sibling before appending it. -/
lemma insertLevel_good (c : Bool) (v : InjectorNode)
    (ins : List MTree → List MTree)
    (hins : ∀ f, GoodForest c f → GoodForest c (ins f)) :
    ∀ level, GoodForest c level → GoodForest c (insertLevel c v ins level) := by
  intro level
  induction level with
  | nil =>
    intro _
    refine GoodForest.mk _ ?_ ?_
    · exact List.pairwise_singleton _ _
    · intro t ht
      simp only [insertLevel, List.mem_singleton] at ht
      subst ht
      exact hins [] (goodForest_nil c)
  | cons t ts ih =>
    intro hg
    cases hg with
    | mk _ pw ch =>
      rw [List.pairwise_cons] at pw
      simp only [insertLevel]
      split
      · refine GoodForest.mk _ ?_ ?_
        · rw [List.pairwise_cons]
          exact ⟨fun u hu => pw.1 u hu, pw.2⟩
        · intro u hu
          rcases List.mem_cons.mp hu with h | h
          · subst h
            simp only [MTree.children_mk]
            exact hins t.children (ch t (List.mem_cons_self t ts))
          · exact ch u (List.mem_cons.mpr (Or.inr h))
      · rename_i hne
        have hne' : equalNode c t.injector v = false := Bool.eq_false_iff.mpr hne
        have hts : GoodForest c ts :=
          GoodForest.mk ts pw.2 (fun u hu => ch u (List.mem_cons.mpr (Or.inr hu)))
        have hrec := ih hts
        cases hrec with
        | mk _ pw' ch' =>
          refine GoodForest.mk _ ?_ ?_
          · rw [List.pairwise_cons]
            refine ⟨?_, pw'⟩
            intro u hu
            rcases insertLevel_injector_mem c v ins ts u hu with h | h
            · rw [h]
              exact ⟨hne', by rw [equalNode_symm]; exact hne'⟩
            · rcases List.mem_map.mp h with ⟨w, hw, hwi⟩
              have hpw := pw.1 w hw
              rw [hwi] at hpw
              exact hpw
          · intro u hu
            rcases List.mem_cons.mp hu with h | h
            · subst h
              exact ch u (List.mem_cons_self u ts)
            · exact ch' u h

/-- Path insertion preserves the invariant at every level of the forest. -/
lemma insertPath_good (c : Bool) (ids : List String) :
    ∀ (p : List SRecord) (f : List MTree),
      GoodForest c f → GoodForest c (insertPath c ids p f) := by
  intro p
  induction p with
  | nil => exact fun f hf => hf
  | cons r rest ih =>
    intro f hf
    exact insertLevel_good c (mkInjectorNode ids r) (insertPath c ids rest) ih f hf

/-- C3: after merging any list of resolution paths (hence after every
single path insertion: every prefix of the insertion sequence is itself
such a list), at every node of the resulting tree and at the top level no
two sibling children are `equalNode`-equal under the active rule. -/
theorem merge_no_duplicate_siblings (c : Bool) (paths : List (List SRecord)) :
    GoodForest c (injectorTreeReloaded c paths) := by
  unfold injectorTreeReloaded
  have h : ∀ (ps : List (List SRecord)) (f : List MTree), GoodForest c f →
      GoodForest c
        (ps.foldl (fun acc rp => insertPath c (rp.map SRecord.id) rp.reverse acc) f) := by
    intro ps
    induction ps with
    | nil => exact fun f hf => hf
    | cons p ps ih =>
      intro f hf
      exact ih _ (insertPath_good c (p.map SRecord.id) p.reverse f hf)
  exact h paths [] (goodForest_nil c)

/-! ## Claim C2: order-(in)dependence of the merge -/

lemma headSeg_nil_left (l : List String) : headSeg [] l = true := rfl

lemma headSeg_nil_right (q : List String) (h : q ≠ []) : headSeg q [] = false := by
  cases q with
  | nil => exact absurd rfl h
  | cons x q => rfl

lemma hasIdPath_nil_path (level : List MTree) : hasIdPath [] level = false := rfl

lemma hasIdPath_nil_forest (q : List String) : hasIdPath q [] = false := by
  cases q <;> rfl

/-- Unfolding of `hasIdPath` on a nonempty id-path, at the `∃`-level. -/
lemma hasIdPath_cons (i : String) (q : List String) (level : List MTree) :
    hasIdPath (i :: q) level = true ↔
      ∃ t ∈ level, t.injector.id = i ∧ (q = [] ∨ hasIdPath q t.children = true) := by
  rw [show hasIdPath (i :: q) level =
    (level.any fun t => t.injector.id == i && (q.isEmpty || hasIdPath q t.children))
    from rfl]
  rw [List.any_eq_true]
  refine exists_congr fun t => and_congr_right fun _ => ?_
  rw [Bool.and_eq_true, Bool.or_eq_true, beq_iff_eq, List.isEmpty_iff]

lemma headSeg_cons (x y : String) (q l : List String) :
    headSeg (x :: q) (y :: l) = (x == y && headSeg q l) := rfl

/-- Splitting `hasIdPath` over the head and tail of a level. -/
lemma hasIdPath_level_cons (i : String) (q : List String) (t : MTree)
    (ts : List MTree) :
    hasIdPath (i :: q) (t :: ts) = true ↔
      ((t.injector.id = i ∧ (q = [] ∨ hasIdPath q t.children = true)) ∨
        hasIdPath (i :: q) ts = true) := by
  rw [show hasIdPath (i :: q) (t :: ts) =
    ((t.injector.id == i && (q.isEmpty || hasIdPath q t.children)) ||
      hasIdPath (i :: q) ts) from rfl]
  rw [Bool.or_eq_true, Bool.and_eq_true, Bool.or_eq_true, beq_iff_eq,
    List.isEmpty_iff]

/-- The id-paths present in the chain of a path are exactly the nonempty
initial segments of the path's id sequence. -/
lemma hasIdPath_chainOf (ids : List String) :
    ∀ (p : List SRecord) (q : List String),
      hasIdPath q (chainOf ids p) = true ↔
        (q ≠ [] ∧ headSeg q (p.map SRecord.id) = true) := by
  intro p
  induction p with
  | nil =>
    intro q
    rw [show chainOf ids [] = [] from rfl, hasIdPath_nil_forest]
    cases q with
    | nil => simp
    | cons i q' => simp [headSeg]
  | cons r rest ih =>
    intro q
    cases q with
    | nil => simp [hasIdPath_nil_path]
    | cons i q' =>
      rw [show chainOf ids (r :: rest) =
        [MTree.mk (mkInjectorNode ids r) (chainOf ids rest)] from rfl]
      rw [hasIdPath_cons]
      simp only [List.mem_singleton, exists_eq_left, MTree.injector_mk,
        MTree.children_mk]
      rw [show (mkInjectorNode ids r).id = r.id from rfl, ih q']
      rw [List.map_cons, headSeg_cons]
      constructor
      · rintro ⟨hid, hq⟩
        refine ⟨List.cons_ne_nil i q', ?_⟩
        rw [Bool.and_eq_true, beq_iff_eq]
        refine ⟨hid.symm, ?_⟩
        rcases hq with hq | ⟨-, hs⟩
        · subst hq
          exact headSeg_nil_left _
        · exact hs
      · rintro ⟨-, hs⟩
        rw [Bool.and_eq_true, beq_iff_eq] at hs
        refine ⟨hs.1.symm, ?_⟩
        by_cases hq : q' = []
        · exact Or.inl hq
        · exact Or.inr ⟨hq, hs.2⟩

/-- With the collapse rule disabled, inserting a path adds exactly the
nonempty initial segments of its id sequence to the id-paths of the
forest. -/
lemma hasIdPath_insertPath (ids : List String) :
    ∀ (p : List SRecord) (f : List MTree) (q : List String),
      hasIdPath q (insertPath false ids p f) = true ↔
        (hasIdPath q f = true ∨
          (q ≠ [] ∧ headSeg q (p.map SRecord.id) = true)) := by
  intro p
  induction p with
  | nil =>
    intro f q
    rw [show insertPath false ids [] f = f from rfl]
    constructor
    · exact Or.inl
    · rintro (h | ⟨hq, hs⟩)
      · exact h
      · rw [List.map_nil, headSeg_nil_right q hq] at hs
        exact absurd hs (by simp)
  | cons r rest ihp =>
    intro f
    induction f with
    | nil =>
      intro q
      rw [show insertPath false ids (r :: rest) [] = chainOf ids (r :: rest) from
        insertPath_nil false ids (r :: rest)]
      rw [hasIdPath_chainOf ids (r :: rest) q, hasIdPath_nil_forest]
      simp
    | cons t ts ihf =>
      intro q
      have hstep : insertPath false ids (r :: rest) (t :: ts) =
          if equalNode false t.injector (mkInjectorNode ids r) then
            MTree.mk t.injector (insertPath false ids rest t.children) :: ts
          else
            t :: insertPath false ids (r :: rest) ts := rfl
      rw [hstep]
      split
      · rename_i heq
        have hid : t.injector.id = r.id := by
          rw [equalNode_false_eq] at heq
          rw [show (mkInjectorNode ids r).id = r.id from rfl] at heq
          exact beq_iff_eq.mp heq
        cases q with
        | nil => simp [hasIdPath_nil_path]
        | cons i q' =>
          rw [hasIdPath_level_cons, hasIdPath_level_cons]
          simp only [MTree.injector_mk, MTree.children_mk]
          rw [ihp t.children q', hid, List.map_cons, headSeg_cons]
          constructor
          · rintro (⟨hi, hq⟩ | hts)
            · rcases hq with hq | hx | ⟨hq', hs⟩
              · exact Or.inl (Or.inl ⟨hi, Or.inl hq⟩)
              · exact Or.inl (Or.inl ⟨hi, Or.inr hx⟩)
              · refine Or.inr ⟨List.cons_ne_nil i q', ?_⟩
                rw [Bool.and_eq_true, beq_iff_eq]
                exact ⟨hi.symm, hs⟩
            · exact Or.inl (Or.inr hts)
          · rintro ((⟨hi, hq⟩ | hts) | ⟨-, hs⟩)
            · exact Or.inl ⟨hi, by tauto⟩
            · exact Or.inr hts
            · rw [Bool.and_eq_true, beq_iff_eq] at hs
              refine Or.inl ⟨hs.1.symm, ?_⟩
              by_cases hq' : q' = []
              · exact Or.inl hq'
              · exact Or.inr (Or.inr ⟨hq', hs.2⟩)
      · cases q with
        | nil => simp [hasIdPath_nil_path]
        | cons i q' =>
          rw [hasIdPath_level_cons, hasIdPath_level_cons, ihf (i :: q')]
          tauto

/-- With collapse disabled, the id-paths of the merged tree are exactly the
nonempty initial segments of the inserted (root-first) id sequences — a
characterization independent of insertion order. -/
lemma hasIdPath_merge (ps : List (List SRecord)) (q : List String) :
    hasIdPath q (injectorTreeReloaded false ps) = true ↔
      (q ≠ [] ∧ ∃ rp ∈ ps, headSeg q (rp.reverse.map SRecord.id) = true) := by
  have main : ∀ (l : List (List SRecord)) (f : List MTree),
      hasIdPath q
        (l.foldl (fun acc rp => insertPath false (rp.map SRecord.id) rp.reverse acc) f)
          = true ↔
        (hasIdPath q f = true ∨
          (q ≠ [] ∧ ∃ rp ∈ l, headSeg q (rp.reverse.map SRecord.id) = true)) := by
    intro l
    induction l with
    | nil => simp
    | cons rp l ih =>
      intro f
      rw [List.foldl_cons, ih, hasIdPath_insertPath]
      constructor
      · rintro ((hf | ⟨hq, hs⟩) | ⟨hq, rp', hm, hs⟩)
        · exact Or.inl hf
        · exact Or.inr ⟨hq, rp, List.mem_cons_self rp l, hs⟩
        · exact Or.inr ⟨hq, rp', List.mem_cons.mpr (Or.inr hm), hs⟩
      · rintro (hf | ⟨hq, rp', hm, hs⟩)
        · exact Or.inl (Or.inl hf)
        · rcases List.mem_cons.mp hm with h | h
          · subst h
            exact Or.inl (Or.inr ⟨hq, hs⟩)
          · exact Or.inr ⟨hq, rp', h, hs⟩
  rw [injectorTreeReloaded, main ps []]
  simp [hasIdPath_nil_forest]

/-- C2 counterexample records: three serialized paths on which, with the
collapse-siblings rule enabled, two insertion orders of the same path
multiset produce trees with different shape.  `cxY` and `cxZ` carry the
same stable id (the same element injector sighted on two component nodes
whose own resolution paths have different lengths), `cxX` is a sibling
element with the same owner label. -/
def cxX : SRecord := ⟨"Element", "AppComp", "idX"⟩

def cxY : SRecord := ⟨"Element", "AppComp", "idY"⟩

def cxZ : SRecord := ⟨"Element", "AppComp", "idY"⟩

def cxW : SRecord := ⟨"Element", "OtherComp", "idW"⟩

def cxP1 : List SRecord := [cxX]

def cxP2 : List SRecord := [cxY]

def cxP3 : List SRecord := [cxW, cxZ]

/-- C2 counterexample: `[cxP2, cxP1, cxP3]` is a permutation of
`[cxP1, cxP3, cxP2]`, yet with collapse enabled merging them in the two
orders yields trees with a different number of top-level children (2 vs 1):
the collapse equivalence is not transitive, so the merge is not
order-independent. -/
theorem merge_order_dependent_counterexample :
    List.Perm [cxP2, cxP1, cxP3] [cxP1, cxP3, cxP2] ∧
    (injectorTreeReloaded true [cxP1, cxP3, cxP2]).length = 2 ∧
    (injectorTreeReloaded true [cxP2, cxP1, cxP3]).length = 1 := by
  refine ⟨?_, by decide, by decide⟩
  exact (List.Perm.swap cxP1 cxP2 [cxP3]).trans
    (List.Perm.cons cxP1 (List.Perm.swap cxP3 cxP2 []))

/-- C2 (amended): with the collapse-siblings rule disabled, merging the
paths in any insertion order produces the same final tree shape, where the
shape is the set of id-paths of the tree's nodes (the tree is determined by
it up to sibling order, since siblings carry distinct ids by the merge
invariant). -/
theorem merge_order_independent_no_collapse (ps ps' : List (List SRecord))
    (h : List.Perm ps ps') (q : List String) :
    hasIdPath q (injectorTreeReloaded false ps) =
      hasIdPath q (injectorTreeReloaded false ps') := by
  have h1 := hasIdPath_merge ps q
  have h2 := hasIdPath_merge ps' q
  have hiff : hasIdPath q (injectorTreeReloaded false ps) = true ↔
      hasIdPath q (injectorTreeReloaded false ps') = true := by
    rw [h1, h2]
    refine and_congr_right fun _ => ?_
    constructor
    · rintro ⟨rp, hm, hs⟩
      exact ⟨rp, h.mem_iff.mp hm, hs⟩
    · rintro ⟨rp, hm, hs⟩
      exact ⟨rp, h.mem_iff.mpr hm, hs⟩
  cases ha : hasIdPath q (injectorTreeReloaded false ps) <;>
    cases hb : hasIdPath q (injectorTreeReloaded false ps') <;> simp_all

/-- Witness for the amended C2 at concrete input: the two orders of
`[cxP1, cxP2]` give the same answer for the id-path `["idX"]`. -/
theorem merge_order_independent_witness :
    hasIdPath ["idX"] (injectorTreeReloaded false [cxP1, cxP2]) =
      hasIdPath ["idX"] (injectorTreeReloaded false [cxP2, cxP1]) :=
  merge_order_independent_no_collapse [cxP1, cxP2] [cxP2, cxP1]
    (List.Perm.swap cxP2 cxP1 []) ["idX"]

/-! ## Part 2: the backend resolution-path serializer
(`prepareForestForSerialization`, `injectorMap`,
`containerInjectorIdToInstance`, `getLatestInjectorGraphCallback`). -/

/-- The data the serializer reads off a raw injector record's `owner`
object.  `key` models the owner's JS object identity (the key under which
`injectorMap` stores it); `isComment` the `owner instanceof Comment` test;
`component` the constructor name of `ng.getComponent(owner)` (`none`
models `getComponent` returning `null`, which the `filter(d => !!d)`
drops); `directives` the constructor names of `ng.getDirectives(owner)`
(directive instances are real objects, so none of them is dropped by the
filter); `name` the `owner.name` read for non-`Element` records. -/
structure RawOwner where
  key : Nat
  isComment : Bool
  component : Option String
  directives : List String
  name : String
deriving DecidableEq, Repr

/-- One record of `getInjectorResolutionPath(node.nativeElement)` before
serialization.  `inst` models the live `injector.instance` object by an
abstract handle. -/
structure RawInjector where
  type : String
  owner : RawOwner
  inst : Nat
deriving DecidableEq, Repr

/-- A serialized injector record.  `owner` is the display label (`none`
models the JS `undefined` produced for an `Element` record whose owner
hosts no component or directives); `inst = none` models the
`delete injector.instance` performed for non-`Element` records, while
`Element` records keep their instance field untouched. -/
structure SerializedInjector where
  type : String
  id : Nat
  owner : Option String
  inst : Option Nat
deriving DecidableEq, Repr

/-- The backend's mutable state: the process-wide `injectorMap` (owner
identity ↦ stable id) and `containerInjectorIdToInstance` side table,
plus a counter modelling `crypto.randomUUID()` as a fresh-id supply
(every call returns a value never returned before). -/
structure SerState where
  injectorMap : List (Nat × Nat)
  containerInjectorIdToInstance : List (Nat × Nat)
  nextUuid : Nat
deriving DecidableEq, Repr

/-- The id-assignment step of the serializer loop:

```js
if (injectorMap.has(injector.owner)) {
  injector.id = injectorMap.get(injector.owner);
} else {
  const uuid = crypto.randomUUID();
  injectorMap.set(injector.owner, uuid);
  injector.id = uuid;
}
```

The key is never present when `set` is called, so modelling `Map.set` by
consing onto the association list (with first-match `lookup`) is
observationally the JS `Map`. -/
def assignInjectorId (s : SerState) (ownerKey : Nat) : Nat × SerState :=
  match s.injectorMap.lookup ownerKey with
  | some id => (id, s)
  | none =>
    (s.nextUuid,
      { s with
        injectorMap := (ownerKey, s.nextUuid) :: s.injectorMap,
        nextUuid := s.nextUuid + 1 })

/-- The owner names gathered for an `Element` record:

```js
let directives = getDirectives(injector.owner);
if (!(injector.owner instanceof Comment)) {
  directives = [getComponent(injector.owner), ...directives]
      .filter(directive => !!directive);
}
directives.map(d => d.constructor.name)
``` -/
def elementDirectiveNames (owner : RawOwner) : List String :=
  if !owner.isComment then owner.component.toList ++ owner.directives
  else owner.directives

/-- The display label of an `Element` record:

```js
const [firstDirective, ...restOfDirectives] = directives.map(d => d.constructor.name);
injector.owner = restOfDirectives.length === 0 ?
    firstDirective :
    `${firstDirective}[${restOfDirectives.join(', ')}]`;
```

An empty name list leaves `firstDirective` undefined, modelled by
`none`. -/
def elementOwnerLabel : List String → Option String
  | [] => none
  | firstDirective :: restOfDirectives =>
    some (if restOfDirectives.length == 0 then firstDirective
      else firstDirective ++ "[" ++ String.intercalate ", " restOfDirectives ++ "]")

/-- One iteration of `for (const injector of resolutionPath)` in
`prepareForestForSerialization`: assign/look up the stable id, then for
`Element` records replace the owner by the display label, and for all
other records cache the instance in `containerInjectorIdToInstance`,
delete the instance field and replace the owner by `owner.name`. -/
def serializeInjector (s : SerState) (injector : RawInjector) :
    SerializedInjector × SerState :=
  let a := assignInjectorId s injector.owner.key
  if injector.type == "Element" then
    ({ type := injector.type, id := a.1,
       owner := elementOwnerLabel (elementDirectiveNames injector.owner),
       inst := some injector.inst }, a.2)
  else
    ({ type := injector.type, id := a.1,
       owner := some injector.owner.name, inst := none },
     { a.2 with
       containerInjectorIdToInstance :=
         (a.1, injector.inst) :: a.2.containerInjectorIdToInstance })

/-- The serializer loop over one node's `resolutionPath`, threading the
backend state left to right. -/
def serializePath : SerState → List RawInjector → List SerializedInjector × SerState
  | s, [] => ([], s)
  | s, injector :: rest =>
    let a := serializeInjector s injector
    let b := serializePath a.2 rest
    (a.1 :: b.1, b.2)

mutual
/-- A node of the indexed directive forest, reduced to the fields the
serializer consults for the resolution paths: the node's raw resolution
path and its children (the forest of children is spelled out as a mutual
inductive so the serializer's recursion is structural). -/
inductive IndexedNode where
  | mk (resolutionPath : List RawInjector) (children : IndexedForest)

/-- A forest of indexed nodes. -/
inductive IndexedForest where
  | nil
  | cons (head : IndexedNode) (tail : IndexedForest)
end

mutual
/-- A serialized forest node: serialized resolution path and children. -/
inductive SerializedNode where
  | mk (resolutionPath : List SerializedInjector) (children : SerializedForest)

/-- A forest of serialized nodes. -/
inductive SerializedForest where
  | nil
  | cons (head : SerializedNode) (tail : SerializedForest)
end

mutual
/-- One step of `roots.map(node => ...)` in
`prepareForestForSerialization` (with `includeResolutionPath = true`):
the object literal evaluates
`children: prepareForestForSerialization(node.children, ...)` first, and
the loop over the node's own `resolutionPath` runs afterwards. -/
def prepareNodeForSerialization (s : SerState) :
    IndexedNode → SerializedNode × SerState
  | IndexedNode.mk rp children =>
    let c := prepareForestForSerialization s children
    let p := serializePath c.2 rp
    (SerializedNode.mk p.1 c.1, p.2)

/-- Function `prepareForestForSerialization`: serialize the roots left to right,
threading the backend state. -/
def prepareForestForSerialization (s : SerState) :
    IndexedForest → SerializedForest × SerState
  | IndexedForest.nil => (SerializedForest.nil, s)
  | IndexedForest.cons n rest =>
    let a := prepareNodeForSerialization s n
    let b := prepareForestForSerialization a.2 rest
    (SerializedForest.cons a.1 b.1, b.2)
end

/-- Callback `getLatestInjectorGraphCallback`: `injectorMap.clear()` runs first,
then the full forest is serialized. -/
def getLatestInjectorGraphCallback (s : SerState) (forest : IndexedForest) :
    SerializedForest × SerState :=
  prepareForestForSerialization { s with injectorMap := [] } forest

/-- The owner identities of a raw path, in serialization order. -/
def pathOwnerKeys (p : List RawInjector) : List Nat :=
  p.map fun i => i.owner.key

mutual
/-- The owner identities sighted while serializing one node, in visit
order (children first, then the node's own path). -/
def nodeOwnerKeys : IndexedNode → List Nat
  | IndexedNode.mk rp children => forestOwnerKeys children ++ pathOwnerKeys rp

/-- The owner identities sighted by a forest pass, in visit order. -/
def forestOwnerKeys : IndexedForest → List Nat
  | IndexedForest.nil => []
  | IndexedForest.cons n rest => nodeOwnerKeys n ++ forestOwnerKeys rest
end

/-- The assigned ids of a serialized path, in order. -/
def pathAssignedIds (sp : List SerializedInjector) : List Nat :=
  sp.map SerializedInjector.id

mutual
/-- The assigned ids of one serialized node, in visit order. -/
def nodeAssignedIds : SerializedNode → List Nat
  | SerializedNode.mk rp children => forestAssignedIds children ++ pathAssignedIds rp

/-- The assigned ids of a serialized forest, in visit order. -/
def forestAssignedIds : SerializedForest → List Nat
  | SerializedForest.nil => []
  | SerializedForest.cons n rest => nodeAssignedIds n ++ forestAssignedIds rest
end

/-! ## Claim C5: stability and clearing of the identity map -/

/-- Invariant of the backend state maintained by the serializer: every id
stored in the identity map is below the fresh-id counter, owner keys are
unique, and assigned ids are unique. -/
def MapInv (s : SerState) : Prop :=
  (∀ p ∈ s.injectorMap, p.2 < s.nextUuid) ∧
  (s.injectorMap.map Prod.fst).Nodup ∧
  (s.injectorMap.map Prod.snd).Nodup

/-- The identity map only grows during one serialization pass. -/
def MapExt (s t : SerState) : Prop :=
  (∀ p ∈ s.injectorMap, p ∈ t.injectorMap) ∧ s.nextUuid ≤ t.nextUuid

lemma mapExt_trans {s t u : SerState} (h1 : MapExt s t) (h2 : MapExt t u) :
    MapExt s u :=
  ⟨fun p hp => h2.1 p (h1.1 p hp), Nat.le_trans h1.2 h2.2⟩

lemma mapInv_of_eq {s t : SerState} (h : MapInv s)
    (hm : t.injectorMap = s.injectorMap) (hn : t.nextUuid = s.nextUuid) :
    MapInv t := by
  unfold MapInv at h ⊢
  rw [hm, hn]
  exact h

lemma mapExt_of_eq {s t t' : SerState} (h : MapExt s t)
    (hm : t'.injectorMap = t.injectorMap) (hn : t'.nextUuid = t.nextUuid) :
    MapExt s t' := by
  unfold MapExt at h ⊢
  rw [hm, hn]
  exact h

lemma lookup_mem : ∀ {l : List (Nat × Nat)} {k v : Nat},
    l.lookup k = some v → (k, v) ∈ l := by
  intro l
  induction l with
  | nil =>
    intro k v h
    simp [List.lookup] at h
  | cons p l ih =>
    intro k v h
    obtain ⟨a, b⟩ := p
    simp only [List.lookup] at h
    split at h
    · rename_i hb
      obtain rfl : k = a := by simpa using hb
      obtain rfl : b = v := by simpa using h
      exact List.mem_cons_self _ _
    · exact List.mem_cons_of_mem _ (ih h)

lemma lookup_none_not_mem : ∀ {l : List (Nat × Nat)} {k : Nat},
    l.lookup k = none → ∀ v, (k, v) ∉ l := by
  intro l
  induction l with
  | nil =>
    intro k _ v hv
    cases hv
  | cons p l ih =>
    intro k h v hv
    obtain ⟨a, b⟩ := p
    simp only [List.lookup] at h
    split at h
    · cases h
    · rename_i hb
      rcases List.mem_cons.mp hv with he | he
      · have hak : a = k := by cases he; rfl
        simp [hak] at hb
      · exact ih h v he

lemma assignInjectorId_ext (s : SerState) (k : Nat) :
    MapExt s (assignInjectorId s k).2 := by
  unfold assignInjectorId MapExt
  split
  · exact ⟨fun p hp => hp, Nat.le_refl _⟩
  · exact ⟨fun p hp => List.mem_cons_of_mem _ hp, Nat.le_succ _⟩

lemma assignInjectorId_mem (s : SerState) (k : Nat) :
    (k, (assignInjectorId s k).1) ∈ (assignInjectorId s k).2.injectorMap := by
  unfold assignInjectorId
  split
  · rename_i id hid
    exact lookup_mem hid
  · exact List.mem_cons_self _ _

lemma assignInjectorId_inv (s : SerState) (k : Nat) (h : MapInv s) :
    MapInv (assignInjectorId s k).2 := by
  obtain ⟨hb, hf, hsnd⟩ := h
  unfold assignInjectorId
  split
  · exact ⟨hb, hf, hsnd⟩
  · rename_i hnone
    refine ⟨?_, ?_, ?_⟩
    · intro p hp
      rcases List.mem_cons.mp hp with hp | hp
      · subst hp
        exact Nat.lt_succ_self _
      · exact Nat.lt_succ_of_lt (hb p hp)
    · simp only [List.map_cons, List.nodup_cons]
      refine ⟨?_, hf⟩
      intro hk
      rcases List.mem_map.mp hk with ⟨p, hp, hpk⟩
      exact lookup_none_not_mem hnone p.2 (by rw [← hpk]; simpa using hp)
    · simp only [List.map_cons, List.nodup_cons]
      refine ⟨?_, hsnd⟩
      intro hk
      rcases List.mem_map.mp hk with ⟨p, hp, hpk⟩
      exact absurd (hb p hp) (by rw [hpk]; exact Nat.lt_irrefl _)

lemma serializeInjector_state (s : SerState) (i : RawInjector) :
    (serializeInjector s i).2.injectorMap =
      (assignInjectorId s i.owner.key).2.injectorMap ∧
    (serializeInjector s i).2.nextUuid =
      (assignInjectorId s i.owner.key).2.nextUuid ∧
    (serializeInjector s i).1.id = (assignInjectorId s i.owner.key).1 := by
  simp only [serializeInjector]
  split <;> simp

lemma serializeInjector_ext (s : SerState) (i : RawInjector) :
    MapExt s (serializeInjector s i).2 := by
  have h := serializeInjector_state s i
  exact mapExt_of_eq (assignInjectorId_ext s i.owner.key) h.1 h.2.1

lemma serializeInjector_inv (s : SerState) (i : RawInjector) (h : MapInv s) :
    MapInv (serializeInjector s i).2 := by
  have hs := serializeInjector_state s i
  exact mapInv_of_eq (assignInjectorId_inv s i.owner.key h) hs.1 hs.2.1

lemma serializeInjector_mem (s : SerState) (i : RawInjector) :
    (i.owner.key, (serializeInjector s i).1.id) ∈
      (serializeInjector s i).2.injectorMap := by
  have h := serializeInjector_state s i
  rw [h.1, h.2.2]
  exact assignInjectorId_mem s i.owner.key

/-- Serializing one path preserves the invariant, only grows the map, and
records every (owner key, assigned id) sighting in the resulting map. -/
lemma serializePath_spec : ∀ (p : List RawInjector) (s : SerState), MapInv s →
    MapInv (serializePath s p).2 ∧ MapExt s (serializePath s p).2 ∧
    (pathAssignedIds (serializePath s p).1).length = (pathOwnerKeys p).length ∧
    (∀ pr ∈ (pathOwnerKeys p).zip (pathAssignedIds (serializePath s p).1),
      pr ∈ (serializePath s p).2.injectorMap) := by
  intro p
  induction p with
  | nil =>
    intro s h
    refine ⟨h, ⟨fun p hp => hp, Nat.le_refl _⟩, rfl, ?_⟩
    intro pr hpr
    simp [pathOwnerKeys] at hpr
  | cons i rest ih =>
    intro s h
    have h1 := serializeInjector_inv s i h
    have he1 := serializeInjector_ext s i
    have hm1 := serializeInjector_mem s i
    obtain ⟨h2, he2, hlen, hmem⟩ := ih (serializeInjector s i).2 h1
    have hout : serializePath s (i :: rest) =
        ((serializeInjector s i).1 :: (serializePath (serializeInjector s i).2 rest).1,
          (serializePath (serializeInjector s i).2 rest).2) := rfl
    rw [hout]
    refine ⟨h2, mapExt_trans he1 he2, ?_, ?_⟩
    · simp only [pathAssignedIds, pathOwnerKeys, List.map_cons, List.length_cons]
      simpa [pathAssignedIds, pathOwnerKeys] using hlen
    · intro pr hpr
      simp only [pathAssignedIds, pathOwnerKeys, List.map_cons, List.zip_cons_cons,
        List.mem_cons] at hpr
      rcases hpr with hpr | hpr
      · subst hpr
        exact he2.1 _ hm1
      · simpa [pathAssignedIds, pathOwnerKeys] using hmem pr
          (by simpa [pathAssignedIds, pathOwnerKeys] using hpr)

mutual
/-- Serializing one node preserves the invariant, grows the map, and
records every sighting. -/
theorem prepareNode_spec : ∀ (s : SerState) (n : IndexedNode), MapInv s →
    MapInv (prepareNodeForSerialization s n).2 ∧
    MapExt s (prepareNodeForSerialization s n).2 ∧
    (nodeAssignedIds (prepareNodeForSerialization s n).1).length =
      (nodeOwnerKeys n).length ∧
    (∀ pr ∈ (nodeOwnerKeys n).zip
        (nodeAssignedIds (prepareNodeForSerialization s n).1),
      pr ∈ (prepareNodeForSerialization s n).2.injectorMap)
  | s, IndexedNode.mk rp children, h => by
    obtain ⟨h1, he1, hlen1, hmem1⟩ := prepareForest_spec s children h
    obtain ⟨h2, he2, hlen2, hmem2⟩ :=
      serializePath_spec rp (prepareForestForSerialization s children).2 h1
    have hout : prepareNodeForSerialization s (IndexedNode.mk rp children) =
        (SerializedNode.mk
            (serializePath (prepareForestForSerialization s children).2 rp).1
            (prepareForestForSerialization s children).1,
          (serializePath (prepareForestForSerialization s children).2 rp).2) := rfl
    rw [hout]
    simp only [nodeAssignedIds, nodeOwnerKeys]
    refine ⟨h2, mapExt_trans he1 he2, ?_, ?_⟩
    · simp [hlen1, hlen2]
    · intro pr hpr
      rw [List.zip_append hlen1.symm, List.mem_append] at hpr
      rcases hpr with hpr | hpr
      · exact he2.1 _ (hmem1 pr hpr)
      · exact hmem2 pr hpr

/-- Serializing a forest preserves the invariant, grows the map, and
records every sighting. -/
theorem prepareForest_spec : ∀ (s : SerState) (f : IndexedForest), MapInv s →
    MapInv (prepareForestForSerialization s f).2 ∧
    MapExt s (prepareForestForSerialization s f).2 ∧
    (forestAssignedIds (prepareForestForSerialization s f).1).length =
      (forestOwnerKeys f).length ∧
    (∀ pr ∈ (forestOwnerKeys f).zip
        (forestAssignedIds (prepareForestForSerialization s f).1),
      pr ∈ (prepareForestForSerialization s f).2.injectorMap)
  | s, IndexedForest.nil, h => by
    refine ⟨h, ⟨fun p hp => hp, Nat.le_refl _⟩, rfl, ?_⟩
    intro pr hpr
    simp [forestOwnerKeys, forestAssignedIds, prepareForestForSerialization] at hpr
  | s, IndexedForest.cons n rest, h => by
    obtain ⟨h1, he1, hlen1, hmem1⟩ := prepareNode_spec s n h
    obtain ⟨h2, he2, hlen2, hmem2⟩ :=
      prepareForest_spec (prepareNodeForSerialization s n).2 rest h1
    have hout : prepareForestForSerialization s (IndexedForest.cons n rest) =
        (SerializedForest.cons (prepareNodeForSerialization s n).1
            (prepareForestForSerialization (prepareNodeForSerialization s n).2 rest).1,
          (prepareForestForSerialization (prepareNodeForSerialization s n).2 rest).2) := rfl
    rw [hout]
    simp only [forestAssignedIds, forestOwnerKeys]
    refine ⟨h2, mapExt_trans he1 he2, ?_, ?_⟩
    · simp [hlen1, hlen2]
    · intro pr hpr
      rw [List.zip_append hlen1.symm, List.mem_append] at hpr
      rcases hpr with hpr | hpr
      · exact he2.1 _ (hmem1 pr hpr)
      · exact hmem2 pr hpr
end

lemma fst_nodup_mem_inj : ∀ {l : List (Nat × Nat)},
    (l.map Prod.fst).Nodup →
    ∀ {p q : Nat × Nat}, p ∈ l → q ∈ l → p.1 = q.1 → p.2 = q.2 := by
  intro l
  induction l with
  | nil =>
    intro _ p q hp
    cases hp
  | cons r l ih =>
    intro hnd p q hp hq h1
    simp only [List.map_cons, List.nodup_cons] at hnd
    rcases List.mem_cons.mp hp with hp | hp <;> rcases List.mem_cons.mp hq with hq | hq
    · rw [hp, hq]
    · exfalso
      apply hnd.1
      have hmq : q.1 ∈ List.map Prod.fst l := List.mem_map_of_mem Prod.fst hq
      rw [← h1, hp] at hmq
      exact hmq
    · exfalso
      apply hnd.1
      have hmp : p.1 ∈ List.map Prod.fst l := List.mem_map_of_mem Prod.fst hp
      rw [h1, hq] at hmp
      exact hmp
    · exact ih hnd.2 hp hq h1

lemma snd_nodup_mem_inj : ∀ {l : List (Nat × Nat)},
    (l.map Prod.snd).Nodup →
    ∀ {p q : Nat × Nat}, p ∈ l → q ∈ l → p.2 = q.2 → p.1 = q.1 := by
  intro l
  induction l with
  | nil =>
    intro _ p q hp
    cases hp
  | cons r l ih =>
    intro hnd p q hp hq h2
    simp only [List.map_cons, List.nodup_cons] at hnd
    rcases List.mem_cons.mp hp with hp | hp <;> rcases List.mem_cons.mp hq with hq | hq
    · rw [hp, hq]
    · exfalso
      apply hnd.1
      have hmq : q.2 ∈ List.map Prod.snd l := List.mem_map_of_mem Prod.snd hq
      rw [← h2, hp] at hmq
      exact hmq
    · exfalso
      apply hnd.1
      have hmp : p.2 ∈ List.map Prod.snd l := List.mem_map_of_mem Prod.snd hp
      rw [h2, hq] at hmp
      exact hmp
    · exact ih hnd.2 hp hq h2

/-! State-congruence: the serialized output depends on the backend state
only through the identity map and the fresh-id counter, never through the
contents of `containerInjectorIdToInstance`. -/

lemma assignInjectorId_congr (s t : SerState) (k : Nat)
    (hm : s.injectorMap = t.injectorMap) (hn : s.nextUuid = t.nextUuid) :
    (assignInjectorId s k).1 = (assignInjectorId t k).1 ∧
    (assignInjectorId s k).2.injectorMap = (assignInjectorId t k).2.injectorMap ∧
    (assignInjectorId s k).2.nextUuid = (assignInjectorId t k).2.nextUuid := by
  unfold assignInjectorId
  rw [hm, hn]
  cases h : t.injectorMap.lookup k <;> simp [h, hm, hn]

lemma serializeInjector_congr (s t : SerState) (i : RawInjector)
    (hm : s.injectorMap = t.injectorMap) (hn : s.nextUuid = t.nextUuid) :
    (serializeInjector s i).1 = (serializeInjector t i).1 ∧
    (serializeInjector s i).2.injectorMap = (serializeInjector t i).2.injectorMap ∧
    (serializeInjector s i).2.nextUuid = (serializeInjector t i).2.nextUuid := by
  obtain ⟨h1, h2, h3⟩ := assignInjectorId_congr s t i.owner.key hm hn
  simp only [serializeInjector]
  split <;> simp [h1, h2, h3]

lemma serializePath_congr : ∀ (p : List RawInjector) (s t : SerState),
    s.injectorMap = t.injectorMap → s.nextUuid = t.nextUuid →
    (serializePath s p).1 = (serializePath t p).1 ∧
    (serializePath s p).2.injectorMap = (serializePath t p).2.injectorMap ∧
    (serializePath s p).2.nextUuid = (serializePath t p).2.nextUuid := by
  intro p
  induction p with
  | nil => exact fun s t hm hn => ⟨rfl, hm, hn⟩
  | cons i rest ih =>
    intro s t hm hn
    obtain ⟨h1, h2, h3⟩ := serializeInjector_congr s t i hm hn
    obtain ⟨g1, g2, g3⟩ := ih (serializeInjector s i).2 (serializeInjector t i).2 h2 h3
    exact ⟨by simp only [serializePath]; rw [h1, g1], g2, g3⟩

mutual
theorem prepareNode_congr : ∀ (s t : SerState) (n : IndexedNode),
    s.injectorMap = t.injectorMap → s.nextUuid = t.nextUuid →
    (prepareNodeForSerialization s n).1 = (prepareNodeForSerialization t n).1 ∧
    (prepareNodeForSerialization s n).2.injectorMap =
      (prepareNodeForSerialization t n).2.injectorMap ∧
    (prepareNodeForSerialization s n).2.nextUuid =
      (prepareNodeForSerialization t n).2.nextUuid
  | s, t, IndexedNode.mk rp children, hm, hn => by
    obtain ⟨h1, h2, h3⟩ := prepareForest_congr s t children hm hn
    obtain ⟨g1, g2, g3⟩ := serializePath_congr rp
      (prepareForestForSerialization s children).2
      (prepareForestForSerialization t children).2 h2 h3
    exact ⟨by simp only [prepareNodeForSerialization]; rw [h1, g1], g2, g3⟩

theorem prepareForest_congr : ∀ (s t : SerState) (f : IndexedForest),
    s.injectorMap = t.injectorMap → s.nextUuid = t.nextUuid →
    (prepareForestForSerialization s f).1 = (prepareForestForSerialization t f).1 ∧
    (prepareForestForSerialization s f).2.injectorMap =
      (prepareForestForSerialization t f).2.injectorMap ∧
    (prepareForestForSerialization s f).2.nextUuid =
      (prepareForestForSerialization t f).2.nextUuid
  | s, t, IndexedForest.nil, hm, hn => ⟨rfl, hm, hn⟩
  | s, t, IndexedForest.cons n rest, hm, hn => by
    obtain ⟨h1, h2, h3⟩ := prepareNode_congr s t n hm hn
    obtain ⟨g1, g2, g3⟩ := prepareForest_congr
      (prepareNodeForSerialization s n).2 (prepareNodeForSerialization t n).2 rest h2 h3
    exact ⟨by simp only [prepareForestForSerialization]; rw [h1, g1], g2, g3⟩
end

lemma mapInv_cleared (s : SerState) : MapInv { s with injectorMap := [] } := by
  unfold MapInv
  simp

/-- C5: within one full-tree serialization pass started by
`getLatestInjectorGraphCallback`, (a) every sighted owner gets exactly one
id — two sightings have equal owner identities iff they were assigned
equal ids (first sighting assigns, later sightings reuse); and (b) the
identity map is cleared at the start of the rebuild before any node is
serialized: the serialized output is independent of whatever the identity
map contained before the call. -/
theorem injector_identity_map_stable (s : SerState) (forest : IndexedForest) :
    ((forestAssignedIds (getLatestInjectorGraphCallback s forest).1).length =
      (forestOwnerKeys forest).length) ∧
    (∀ pr ∈ (forestOwnerKeys forest).zip
        (forestAssignedIds (getLatestInjectorGraphCallback s forest).1),
      ∀ qr ∈ (forestOwnerKeys forest).zip
        (forestAssignedIds (getLatestInjectorGraphCallback s forest).1),
      (pr.1 = qr.1 ↔ pr.2 = qr.2)) ∧
    (∀ t : SerState, t.nextUuid = s.nextUuid →
      (getLatestInjectorGraphCallback t forest).1 =
        (getLatestInjectorGraphCallback s forest).1) := by
  obtain ⟨hinv, -, hlen, hmem⟩ :=
    prepareForest_spec { s with injectorMap := [] } forest (mapInv_cleared s)
  refine ⟨hlen, ?_, ?_⟩
  · intro pr hpr qr hqr
    have hpr' := hmem pr hpr
    have hqr' := hmem qr hqr
    obtain ⟨-, hf, hsnd⟩ := hinv
    constructor
    · intro h1
      exact fst_nodup_mem_inj hf hpr' hqr' h1
    · intro h2
      exact snd_nodup_mem_inj hsnd hpr' hqr' h2
  · intro t hn
    exact (prepareForest_congr { t with injectorMap := [] }
      { s with injectorMap := [] } forest rfl hn).1

/-- Concrete forest for the C5 witness: one root whose path sights owner
key 1 twice (an element injector shared with the child node) and owner
key 2 once; serialization starts from a dirty prior state. -/
def wOwner1 : RawOwner := ⟨1, false, some "AppComp", ["TooltipDir"], "Mod"⟩

def wOwner2 : RawOwner := ⟨2, false, none, [], "ModuleA"⟩

def wForest : IndexedForest :=
  IndexedForest.cons
    (IndexedNode.mk [⟨"Element", wOwner1, 11⟩, ⟨"Module", wOwner2, 12⟩]
      (IndexedForest.cons (IndexedNode.mk [⟨"Element", wOwner1, 13⟩] IndexedForest.nil)
        IndexedForest.nil))
    IndexedForest.nil

/-- Witness for C5: on `wForest`, starting from a dirty state, the two
sightings of owner 1 received the same id (both appear as the pair
`(1, 0)` in the sighting list) and the iff of the theorem holds at them;
the stale map entry `(5, 9)` did not leak into the pass. -/
theorem injector_identity_map_stable_witness :
    ((1, 0) : Nat × Nat).1 = ((1, 0) : Nat × Nat).1 ↔
      ((1, 0) : Nat × Nat).2 = ((1, 0) : Nat × Nat).2 :=
  (injector_identity_map_stable ⟨[(5, 9)], [], 0⟩ wForest).2.1
    (1, 0) (by decide) (1, 0) (by decide)

/-! ## Claims C6, C7, C8: the per-record serialization -/

/-- C6: for every `Element`-kind record whose owner hosts at least one
component/directive, serialization replaces the owner with a single
display label — the primary directive's name alone when it is the only
owner, otherwise the primary name followed by the bracket-enclosed,
comma-separated list of the remaining co-located directive names. -/
theorem element_owner_label_spec (s : SerState) (i : RawInjector)
    (n : String) (rest : List String)
    (ht : i.type = "Element")
    (hd : elementDirectiveNames i.owner = n :: rest) :
    (serializeInjector s i).1.owner =
      some (if rest = [] then n
        else n ++ "[" ++ String.intercalate ", " rest ++ "]") := by
  cases rest with
  | nil => simp [serializeInjector, ht, elementOwnerLabel, hd]
  | cons a l => simp [serializeInjector, ht, elementOwnerLabel, hd]

/-- Witness for C6: a component plus two co-located directives serialize
to the label `AppComp[TipDir, HostDir]`. -/
theorem element_owner_label_spec_witness :
    (serializeInjector ⟨[], [], 0⟩
        ⟨"Element", ⟨1, false, some "AppComp", ["TipDir", "HostDir"], "x"⟩, 3⟩).1.owner =
      some "AppComp[TipDir, HostDir]" := by
  have h := element_owner_label_spec ⟨[], [], 0⟩
    ⟨"Element", ⟨1, false, some "AppComp", ["TipDir", "HostDir"], "x"⟩, 3⟩
    "AppComp" ["TipDir", "HostDir"] rfl rfl
  exact h.trans (by decide)

/-- C7: for every non-`Element` (Module/Platform/Injector/NullInjector)
record, serialization stores the record's live injector instance in the
`containerInjectorIdToInstance` side table under the record's assigned id,
removes the instance field from the serialized record, and replaces the
owner with the type's declared name — so the live object is recoverable
from the id alone. -/
theorem container_injector_side_table (s : SerState) (i : RawInjector)
    (ht : i.type ≠ "Element") :
    (serializeInjector s i).1.inst = none ∧
    (serializeInjector s i).1.owner = some i.owner.name ∧
    (serializeInjector s i).2.containerInjectorIdToInstance.lookup
      (serializeInjector s i).1.id = some i.inst := by
  have hb : (i.type == "Element") = false := by simpa using ht
  simp [serializeInjector, hb, List.lookup]

/-- Witness for C7: a `Module` record's instance handle 12 is recoverable
from the side table under its assigned id. -/
theorem container_injector_side_table_witness :
    (serializeInjector ⟨[], [], 7⟩
        ⟨"Module", ⟨2, false, none, [], "ModuleA"⟩, 12⟩).2.containerInjectorIdToInstance.lookup
      (serializeInjector ⟨[], [], 7⟩
        ⟨"Module", ⟨2, false, none, [], "ModuleA"⟩, 12⟩).1.id = some 12 :=
  (container_injector_side_table ⟨[], [], 7⟩
    ⟨"Module", ⟨2, false, none, [], "ModuleA"⟩, 12⟩ (by decide)).2.2

/-- C8: an `Element`-kind record whose owner hosts no component or
directives (a comment/anchor node) still serializes to a complete record —
the serializer is total on it — whose label is empty (`none`, modelling
the `undefined` the JS destructuring of an empty list produces) instead of
failing. -/
theorem element_empty_owner_serializes (s : SerState) (i : RawInjector)
    (ht : i.type = "Element")
    (hd : elementDirectiveNames i.owner = []) :
    (serializeInjector s i).1 =
      { type := "Element", id := (assignInjectorId s i.owner.key).1,
        owner := none, inst := some i.inst } := by
  simp [serializeInjector, ht, hd, elementOwnerLabel]

/-- Witness for C8: a comment node hosting nothing serializes with an
absent label. -/
theorem element_empty_owner_serializes_witness :
    (serializeInjector ⟨[], [], 0⟩ ⟨"Element", ⟨3, true, none, [], "c"⟩, 9⟩).1 =
      { type := "Element", id := 0, owner := none, inst := some 9 } :=
  (element_empty_owner_serializes ⟨[], [], 0⟩
    ⟨"Element", ⟨3, true, none, [], "c"⟩, 9⟩ rfl rfl).trans (by decide)

/-! ## Part 3: `queryDirectiveForest` (claim C9) -/

/-- A node of the component forest.  `queryDirectiveForest` consults only
the `children` field; the other `ComponentTreeNode` fields are irrelevant
to the lookup and are summarized by the `element` name. -/
inductive CTNode where
  | mk (element : String) (children : List CTNode)

def CTNode.children : CTNode → List CTNode
  | .mk _ cs => cs

/-- Function `queryDirectiveForest` from `component-tree.ts`:

```js
if (!position.length) return null;
let node = null;
for (const i of position) {
  node = forest[i];
  if (!node) return null;
  forest = node.children;
}
return node;
``` -/
def queryDirectiveForest : List Nat → List CTNode → Option CTNode
  | [], _ => none
  | [i], forest => forest[i]?
  | i :: j :: rest, forest =>
    match forest[i]? with
    | none => none
    | some node => queryDirectiveForest (j :: rest) node.children

/-- Every index along `position` names an existing node of the forest. -/
def validWalk : List Nat → List CTNode → Bool
  | [], _ => true
  | [i], forest => forest[i]?.isSome
  | i :: j :: rest, forest =>
    match forest[i]? with
    | none => false
    | some node => validWalk (j :: rest) node.children

/-- C9: `queryDirectiveForest` returns `null` exactly when the position is
empty or some index along the position does not name an existing node of
the forest; being a total function of its inputs, it never throws and
returns no node in those cases. -/
theorem queryDirectiveForest_none_iff :
    ∀ (position : List Nat) (forest : List CTNode),
      queryDirectiveForest position forest = none ↔
        (position = [] ∨ validWalk position forest = false)
  | [], forest => by simp [queryDirectiveForest]
  | [i], forest => by
    cases hf : forest[i]? <;> simp [queryDirectiveForest, validWalk, hf]
  | i :: j :: rest, forest => by
    cases hf : forest[i]? with
    | none => simp [queryDirectiveForest, validWalk, hf]
    | some node =>
      have ih := queryDirectiveForest_none_iff (j :: rest) node.children
      simp only [queryDirectiveForest, validWalk, hf]
      rw [ih]
      simp

end AngularDevTools
